import Mathlib

/-!
Shallow embedding of the dependency-aware tool planner
(source: src/src/dependency_planner.py) and proofs about it.

Python values occurring as parameter or pool entries are modelled by
`PyVal`; Python dicts that the planner only iterates or looks up are
modelled as association lists in insertion order; Python sets of
strings are modelled as duplicate-free lists built by `addToSet`,
since the planner only uses membership, subset, copy and update.
-/

/-- A Python value as far as the planner observes it: a string, a
number, the `None` value, or any other non-string literal. -/
inductive PyVal where
  | vstr (s : String)
  | vint (n : Int)
  | vnone
  | vother
deriving DecidableEq, Repr

/-- The vertical bar character. -/
def barChar : Char := Char.ofNat 124

/-- Python `s.split('||')` on character lists: scan left to right,
cutting at each non-overlapping occurrence of two consecutive bars.
Structural recursion so that concrete values reduce in the kernel. -/
def splitOnBarsChars : List Char → List (List Char)
  | [] => [[]]
  | [c] => [[c]]
  | c :: c2 :: rest2 =>
    if c = barChar ∧ c2 = barChar then [] :: splitOnBarsChars rest2
    else
      match splitOnBarsChars (c2 :: rest2) with
      | [] => [[c]]
      | piece :: t => (c :: piece) :: t

/-- Python `s.split('||')`. -/
def pySplitOnBars (s : String) : List String :=
  (splitOnBarsChars s.data).map String.mk

/-- Python `'||' in s`: the split has more than one piece. -/
def containsBars (s : String) : Bool :=
  (pySplitOnBars s).length != 1

/-- Python `s.startswith(pre)`. -/
def pyStartsWith (s pre : String) : Bool :=
  pre.data.isPrefixOf s.data

/-- Python `s[n:]`. -/
def pyDrop (s : String) (n : Nat) : String :=
  String.mk (s.data.drop n)

/-- An ASCII whitespace character (the characters Python `strip()`
removes on the inputs the planner sees). -/
def isSpaceChar (c : Char) : Bool :=
  c = Char.ofNat 32 || c = Char.ofNat 9 || c = Char.ofNat 10 ||
  c = Char.ofNat 13 || c = Char.ofNat 11 || c = Char.ofNat 12

/-- Drop leading and trailing characters satisfying `p`. -/
def trimCharsBy (p : Char → Bool) (l : List Char) : List Char :=
  ((l.dropWhile p).reverse.dropWhile p).reverse

/-- Python `s.strip()`. -/
def pyTrim (s : String) : String :=
  String.mk (trimCharsBy isSpaceChar s.data)

/-- Python `s.strip('"\'')`: remove any leading and trailing quote
characters (double or single quotes). -/
def stripQuotes (s : String) : String :=
  String.mk (trimCharsBy (fun c => c = Char.ofNat 34 || c = Char.ofNat 39) s.data)

/-- Add an element to a set-as-list (Python `set.add`): no duplicates. -/
def addToSet (s : List String) (x : String) : List String :=
  if x ∈ s then s else s ++ [x]

/-- Python `set.update`: fold `addToSet` over the new elements. -/
def unionSet (s : List String) (xs : List String) : List String :=
  xs.foldl addToSet s

/-- Python `set.issubset` on sets-as-lists. -/
def subsetSet (a b : List String) : Bool :=
  a.all (fun x => b.contains x)

/-- Python `list(set(l))`: deduplicate, keeping first occurrences. -/
def listSet (l : List String) : List String :=
  l.foldl addToSet []

/-- Python `dict.get(name)`: value when present, `None` otherwise. -/
def pyGet (pool : List (String × PyVal)) (name : String) : PyVal :=
  match pool.lookup name with
  | some v => v
  | none => PyVal.vnone

/-- Python `dict.get(name, default)`. -/
def pyGetD (pool : List (String × PyVal)) (name : String) (d : PyVal) : PyVal :=
  match pool.lookup name with
  | some v => v
  | none => d

/-- One raw tool step of a plan: the dict
`{tool, params, post_process, note}` consumed by the planner. -/
structure RawStep where
  tool : String
  params : List (String × PyVal)
  post_process : Option String
  note : Option String
deriving DecidableEq, Repr

/-- The static post-processor output table of
`ToolDependency._get_provided_variables`; unknown operators map to
the empty set. -/
def postProcessorOutputs (p : String) : List String :=
  if p = "find_transition_id" then ["transition_id"]
  else if p = "extract_end_date" then ["end_date"]
  else if p = "extract_attachments" then ["attachments"]
  else if p = "count_results" then ["count", "total"]
  else if p = "build_associations" then ["association_ids"]
  else if p = "generate_burndown_chart" then ["burndown_data"]
  else if p = "calculate_average_resolution_time" then ["average_time"]
  else if p = "generate_closure_report" then ["closure_report"]
  else if p = "calculate_velocity_last_3_sprints" then ["velocity_data"]
  else if p = "format_notification" then ["notification_text"]
  else if p = "schedule_reminder" then ["reminder_id"]
  else if p = "setup_alert_subscription" then ["subscription_id"]
  else if p = "format_qa_notification" then ["qa_notification"]
  else if p = "generate_daily_summary" then ["daily_summary"]
  else if p = "format_and_share_external" then ["share_result"]
  else if p = "group_by_stage" then ["stage_groups"]
  else if p = "group_by_lifecycle_stage" then ["lifecycle_groups"]
  else if p = "calculate_revenue_forecast" then ["revenue_forecast"]
  else if p = "generate_activity_summary" then ["activity_summary"]
  else if p = "format_pipelines" then ["pipeline_data"]
  else if p = "bulk_import_contacts" then ["import_results"]
  else if p = "bulk_update_lifecycle_stage" then ["update_results"]
  else []

/-- The `required_vars` loop of `ToolDependency.__init__`: for each
string parameter value starting with `$`, add the name of the `$`
part (before `||` when a default is present). -/
def stepRequiredVars (params : List (String × PyVal)) : List String :=
  params.foldl
    (fun acc kv =>
      match kv.2 with
      | PyVal.vstr value =>
        if pyStartsWith value "$" then
          if containsBars value then
            let var_part := pyTrim ((pySplitOnBars value).headD "")
            if pyStartsWith var_part "$" then addToSet acc (pyDrop var_part 1) else acc
          else addToSet acc (pyDrop value 1)
        else acc
      | _ => acc)
    []

/-- `provided_vars` of `ToolDependency.__init__`: registry lookup on
the post-processor when one is declared. -/
def stepProvidedVars (post_process : Option String) : List String :=
  match post_process with
  | none => []
  | some p => postProcessorOutputs p

/-- A `ToolDependency` instance: the raw step fields plus its
position; `required_vars` and `provided_vars` are derived below. -/
structure ToolDependency where
  tool_name : String
  params : List (String × PyVal)
  post_process : Option String
  note : Option String
  step_index : Nat
  original_step : RawStep
deriving DecidableEq, Repr

def ToolDependency.required_vars (d : ToolDependency) : List String :=
  stepRequiredVars d.params

def ToolDependency.provided_vars (d : ToolDependency) : List String :=
  stepProvidedVars d.post_process

/-- `ToolDependency(tool_step, step_index)`. -/
def mkToolDependency (step : RawStep) (i : Nat) : ToolDependency :=
  { tool_name := step.tool
    params := step.params
    post_process := step.post_process
    note := step.note
    step_index := i
    original_step := step }

/-- `DependencyPlanner.analyze_dependencies`. -/
def analyze_dependencies (tool_plan : List RawStep) : List ToolDependency :=
  tool_plan.enum.map (fun p => mkToolDependency p.2 p.1)

/-- A `{name, required}` entry of the intent variable schema. -/
structure VarDef where
  name : String
  required : Bool
deriving DecidableEq, Repr

/-- The intent configuration fields the planner reads; `vars` models
the `variables` attribute of `IntentConfig` (the word itself is
reserved in Lean). -/
structure IntentConfig where
  tool_plan : List RawStep
  vars : List VarDef
deriving DecidableEq, Repr

/-- The schema partition loop of `validate_dependencies`
(lines 104 to 114): required names and optional names. -/
def schemaPartition (vars : List VarDef) : List String × List String :=
  vars.foldl
    (fun acc vd =>
      if vd.required then (addToSet acc.1 vd.name, acc.2)
      else (acc.1, addToSet acc.2 vd.name))
    ([], [])

/-- The per-descriptor classification loop of `validate_dependencies`
(lines 121 to 135): bare variable references are classified as
required or optional by the schema, defaulting to required; values
with `||` are skipped. Returns `(tool_required, tool_optional)`. -/
def stepClassifiedVars (reqS optS : List String) (params : List (String × PyVal)) :
    List String × List String :=
  params.foldl
    (fun acc kv =>
      match kv.2 with
      | PyVal.vstr value =>
        if pyStartsWith value "$" then
          if containsBars value then acc
          else
            let var_name := pyDrop value 1
            if var_name ∈ reqS then (addToSet acc.1 var_name, acc.2)
            else if var_name ∈ optS then (acc.1, addToSet acc.2 var_name)
            else (addToSet acc.1 var_name, acc.2)
        else acc
      | _ => acc)
    ([], [])

/-- Python set difference `a - b` on sets-as-lists. -/
def setDiff (a b : List String) : List String :=
  a.filter (fun x => !(b.contains x))

/-- The main loop of `validate_dependencies` (lines 116 to 150):
walk the descriptors in declared order, extending the missing lists,
and add each provided set to the current variables unconditionally.
Returns the pre-deduplication `(missing_required, missing_optional)`. -/
def validateLoop (reqS optS : List String) :
    List ToolDependency → List String → List String → List String →
    List String × List String
  | [], _, mr, mo => (mr, mo)
  | dep :: rest, cur, mr, mo =>
    let tro := stepClassifiedVars reqS optS dep.params
    let missing_req := setDiff tro.1 cur
    let missing_opt := setDiff tro.2 cur
    validateLoop reqS optS rest (unionSet cur dep.provided_vars)
      (mr ++ missing_req) (mo ++ missing_opt)

/-- `DependencyPlanner.validate_dependencies`. -/
def validate_dependencies (dependencies : List ToolDependency)
    (available_vars : List String) (cfgVars : List VarDef) :
    Bool × List String × List String :=
  let part := schemaPartition cfgVars
  let mm := validateLoop part.1 part.2 dependencies available_vars [] []
  (mm.1.length == 0, listSet mm.1, listSet mm.2)

/-- The `truly_required` set of the scheduler loop (lines 170 to
175): bare variable references only, defaults excluded. -/
def trulyRequired (params : List (String × PyVal)) : List String :=
  params.foldl
    (fun acc kv =>
      match kv.2 with
      | PyVal.vstr value =>
        if pyStartsWith value "$" then
          if containsBars value then acc
          else addToSet acc (pyDrop value 1)
        else acc
      | _ => acc)
    []

/-- The `executable_now` computation (lines 167 to 178):
enumerated remaining descriptors whose truly required variables are
all available. -/
def executableNow (remaining : List ToolDependency) (cur : List String) :
    List (Nat × ToolDependency) :=
  remaining.enum.filter (fun p => subsetSet (trulyRequired p.2.params) cur)

/-- Stable insertion by ascending `step_index` (Python `list.sort`
with `key=lambda x: x[1].step_index`). -/
def insertByIdx (x : Nat × ToolDependency) :
    List (Nat × ToolDependency) → List (Nat × ToolDependency)
  | [] => [x]
  | y :: ys =>
    if x.2.step_index ≤ y.2.step_index then x :: y :: ys
    else y :: insertByIdx x ys

/-- Stable sort by ascending `step_index`. -/
def sortByIdx (l : List (Nat × ToolDependency)) : List (Nat × ToolDependency) :=
  l.foldr insertByIdx []

/-- The execution loop over `reversed(executable_now)` (lines 191 to
196): append the original step, update the variables with the
provided set, and pop the stored index from the remaining list. -/
def popRound (pairs : List (Nat × ToolDependency)) (ordered : List RawStep)
    (cur : List String) (remaining : List ToolDependency) :
    List RawStep × List String × List ToolDependency :=
  match pairs with
  | [] => (ordered, cur, remaining)
  | (i, dep) :: rest =>
    popRound rest (ordered ++ [dep.original_step])
      (unionSet cur dep.provided_vars) (remaining.eraseIdx i)

/-- One rewriting of the `while remaining_deps:` loop of
`reorder_tool_plan` (lines 163 to 199), with fuel for termination;
`reorder_tool_plan` supplies fuel `dependencies.length`, which the
round lemmas below prove sufficient. The dead
`if not executed_in_round: break` of the source is omitted: with the
fallback, a round with non-empty remaining always executes. -/
def scheduleLoop : Nat → List ToolDependency → List RawStep → List String → List RawStep
  | 0, _, ordered, _ => ordered
  | fuel + 1, remaining, ordered, cur =>
    if remaining.isEmpty then ordered
    else
      let execNow := executableNow remaining cur
      let execNow2 := if execNow.isEmpty then remaining.enum else execNow
      let out := popRound (sortByIdx execNow2).reverse ordered cur remaining
      scheduleLoop fuel out.2.2 out.1 out.2.1

/-- `DependencyPlanner.reorder_tool_plan`. -/
def reorder_tool_plan (dependencies : List ToolDependency)
    (available_vars : List String) : List RawStep :=
  scheduleLoop dependencies.length dependencies [] available_vars

/-- The per-value substitution of `DependencyPlanner._replace_variables`
(lines 291 to 310): a string starting with `$` is looked up under the
rest of the string; otherwise a string containing `||` that splits in
exactly two parts, whose trimmed left part starts with `$`, is looked
up under the left name with the quote-stripped right part as default;
everything else is kept as is. -/
def replaceValue (pool : List (String × PyVal)) (value : PyVal) : PyVal :=
  match value with
  | PyVal.vstr s =>
    if pyStartsWith s "$" then pyGet pool (pyDrop s 1)
    else if containsBars s then
      let parts := pySplitOnBars s
      if parts.length == 2 then
        let var_part := pyTrim (parts.headD "")
        let default_part := stripQuotes (pyTrim (parts.getD 1 ""))
        if pyStartsWith var_part "$" then
          pyGetD pool (pyDrop var_part 1) (PyVal.vstr default_part)
        else value
      else value
    else value
  | _ => value

/-- `DependencyPlanner._replace_variables`. -/
def replaceVariables (params : List (String × PyVal))
    (pool : List (String × PyVal)) : List (String × PyVal) :=
  params.map (fun kv => (kv.1, replaceValue pool kv.2))

/-- Python `", ".join(l)`. -/
def joinComma : List String → String
  | [] => ""
  | [x] => x
  | x :: y :: xs => x ++ ", " ++ joinComma (y :: xs)

/-- The structured result dict of `plan_tool_execution`: the empty
plan failure, the missing-variables failure, or the success record
with the finalized plan, the execution order and the
dependency-analysis summary fields. -/
inductive PlanResult where
  | errEmpty (error : String)
  | errMissing (error : String) (missing_variables : List String)
      (missing_optional_variables : List String)
      (available_variables : List String)
  | ok (tool_plan : List RawStep) (execution_order : List String)
      (total_tools : Nat) (reordered : Bool)
      (available_vars : List String) (tools_with_dependencies : List String)
deriving DecidableEq, Repr

/-- The `success` key of the result dict. -/
def PlanResult.success : PlanResult → Bool
  | .ok _ _ _ _ _ _ => true
  | _ => false

/-- The `error` key of the result dict, absent on success. -/
def PlanResult.errorMsg : PlanResult → Option String
  | .errEmpty e => some e
  | .errMissing e _ _ _ => some e
  | .ok _ _ _ _ _ _ => none

/-- The `missing_variables` key, absent unless validation failed. -/
def PlanResult.missingRequired : PlanResult → Option (List String)
  | .errMissing _ mr _ _ => some mr
  | _ => none

/-- The `missing_optional_variables` key. -/
def PlanResult.missingOptional : PlanResult → Option (List String)
  | .errMissing _ _ mo _ => some mo
  | _ => none

/-- The `execution_order` key, present on success. -/
def PlanResult.executionOrder : PlanResult → Option (List String)
  | .ok _ eo _ _ _ _ => some eo
  | _ => none

/-- The `dependency_analysis` dict, present on success. -/
def PlanResult.analysisSummary : PlanResult → Option (Nat × Bool × List String × List String)
  | .ok _ _ t r a d => some (t, r, a, d)
  | _ => none

/-- `DependencyPlanner.plan_tool_execution`. The `try` boundary of
the source is not modelled: every operation of the embedding is
total, so no exception path exists. -/
def plan_tool_execution (intent_config : IntentConfig)
    (extracted_vars : List (String × PyVal)) : PlanResult :=
  if intent_config.tool_plan.isEmpty then
    PlanResult.errEmpty "No tool plan defined for this intent"
  else
    let dependencies := analyze_dependencies intent_config.tool_plan
    let available_vars := extracted_vars.map Prod.fst
    let v := validate_dependencies dependencies available_vars intent_config.vars
    if !v.1 then
      PlanResult.errMissing
        ("Cannot satisfy dependencies. Missing required variables: " ++ joinComma v.2.1)
        v.2.1 v.2.2 available_vars
    else
      let ordered_plan := reorder_tool_plan dependencies available_vars
      let final_plan := ordered_plan.map (fun ts =>
        { tool := ts.tool
          params := (replaceVariables ts.params extracted_vars).filter
            (fun kv => kv.2 ≠ PyVal.vnone)
          post_process := ts.post_process
          note := ts.note : RawStep })
      PlanResult.ok final_plan (final_plan.map (fun s => s.tool))
        dependencies.length
        (ordered_plan.length != intent_config.tool_plan.length ||
          (ordered_plan.map (fun s => s.tool)) != (intent_config.tool_plan.map (fun s => s.tool)))
        available_vars
        ((dependencies.filter (fun d => !(d.required_vars.isEmpty))).map
          (fun d => d.tool_name))

/-!  Helper definitions used only to state and prove the theorems. -/

/-- A string value that is a bare variable reference: starts with `$`
and has no `||`. -/
def isBareRef (v : String) : Bool :=
  pyStartsWith v "$" && !(containsBars v)

/-- A string value the `required_vars` loop treats as a reference with
a default: starts with `$`, has `||`, and its trimmed left part
starts with `$`. -/
def isDefaultRef (v : String) : Bool :=
  pyStartsWith v "$" && containsBars v &&
    pyStartsWith (pyTrim ((pySplitOnBars v).headD "")) "$"

/-- The variable name of a default-bearing reference. -/
def defaultRefName (v : String) : String :=
  pyDrop (pyTrim ((pySplitOnBars v).headD "")) 1

/-- The variable set after a run of descriptors has contributed its
provided variables (matching both the validator and the scheduler
update). -/
def foldProv (cur : List String) (ds : List ToolDependency) : List String :=
  ds.foldl (fun c d => unionSet c d.provided_vars) cur

/-- Drop every parameter whose value is a string containing `||`
(the default syntax). -/
def eraseDefaultParams (d : ToolDependency) : ToolDependency :=
  { d with params := d.params.filter (fun kv =>
      match kv.2 with
      | PyVal.vstr v => !(containsBars v)
      | _ => true) }

/-- The effective readiness predicate of one scheduler round: real
readiness when some descriptor is ready, everything otherwise (the
fallback). -/
def roundPred (remaining : List ToolDependency) (cur : List String) :
    ToolDependency → Bool :=
  if (executableNow remaining cur).isEmpty then fun _ => true
  else fun d => subsetSet (trulyRequired d.params) cur

/-!  Concrete instances used by counterexamples and witnesses. -/

/-- A step with a literal parameter and no dependencies. -/
def planStepA : RawStep :=
  { tool := "a", params := [("x", PyVal.vstr "1")], post_process := none, note := none }

/-- A step with no parameters and no dependencies. -/
def planStepB : RawStep :=
  { tool := "b", params := [], post_process := none, note := none }

/-- Step A of the two-step scenario: `create_issue` with
post-processor `extract_issue_key`. -/
def scenarioStepA : RawStep :=
  { tool := "create_issue", params := [("summary", PyVal.vstr "$summary")]
    post_process := some "extract_issue_key", note := none }

/-- Step B of the two-step scenario: `assign_issue` needing
`issue_key` and `assignee`. -/
def scenarioStepB : RawStep :=
  { tool := "assign_issue"
    params := [("issueKey", PyVal.vstr "$issue_key"), ("assignee", PyVal.vstr "$assignee")]
    post_process := none, note := none }

/-- The variable pool of the two-step scenario. -/
def scenarioPool : List (String × PyVal) :=
  [("summary", PyVal.vstr "Fix bug"), ("assignee", PyVal.vstr "jane")]

/-- A step with a single default-bearing parameter. -/
def defaultParamStep : RawStep :=
  { tool := "t", params := [("priority", PyVal.vstr "$priority || \"Medium\"")]
    post_process := none, note := none }

/-- A step with one bare variable reference, used by witnesses. -/
def bareRefStep : RawStep :=
  { tool := "w", params := [("p", PyVal.vstr "$foo")], post_process := none, note := none }

/-!  Claim theorems. -/

/-- C1: the claimed default-fallback resolution does not happen. A
parameter whose template is a reference with a default starts with
`$`, so `_replace_variables` takes its first branch, looks up the
whole remainder of the string (a key the pool never has) and yields
`None`, under the empty pool as well as under the pool binding
`priority` to `High`; the default branch of the source is unreachable
for every `$`-prefixed value. -/
theorem c1_default_fallback_not_applied :
    replaceVariables [("priority", PyVal.vstr "$priority || \"Medium\"")] [] =
      [("priority", PyVal.vnone)] ∧
    replaceVariables [("priority", PyVal.vstr "$priority || \"Medium\"")]
        [("priority", PyVal.vstr "High")] =
      [("priority", PyVal.vnone)] := by
  exact ⟨rfl, rfl⟩

/-- C2: a two-step plan with no variable references is scheduled in
reversed order `[B, A]` and the summary reports `reordered = true`,
because the execution loop iterates `reversed(executable_now)` and
appends inside that loop. This refutes the claim that the original
order is preserved. -/
theorem c2_no_refs_plan_reversed :
    reorder_tool_plan (analyze_dependencies [planStepA, planStepB]) [] =
      [planStepB, planStepA] ∧
    plan_tool_execution { tool_plan := [planStepA, planStepB], vars := [] } [] =
      PlanResult.ok [planStepB, planStepA] ["b", "a"] 2 true [] [] := by
  exact ⟨rfl, rfl⟩

/-- C3 counterexample: for the two-step scenario the planner fails
with missing required variable `issue_key` instead of succeeding:
`extract_issue_key` is not a key of the producer registry, so step A
provides nothing. -/
theorem c3_counterexample :
    plan_tool_execution { tool_plan := [scenarioStepA, scenarioStepB], vars := [] }
        scenarioPool =
      PlanResult.errMissing
        "Cannot satisfy dependencies. Missing required variables: issue_key"
        ["issue_key"] [] ["summary", "assignee"] := by
  exact rfl

/-- C3 amended: planning the two-step scenario fails with missing
required variable `issue_key` (step A provides nothing because
`extract_issue_key` is outside the closed producer registry); the
scheduler, run on its own, still orders the steps `[A, B]`, and the
finalizer applied to step B keeps `assignee = "jane"` and drops
`issueKey`. -/
theorem c3_amended_scenario :
    plan_tool_execution { tool_plan := [scenarioStepA, scenarioStepB], vars := [] }
        scenarioPool =
      PlanResult.errMissing
        "Cannot satisfy dependencies. Missing required variables: issue_key"
        ["issue_key"] [] ["summary", "assignee"] ∧
    reorder_tool_plan (analyze_dependencies [scenarioStepA, scenarioStepB])
        ["summary", "assignee"] =
      [scenarioStepA, scenarioStepB] ∧
    (replaceVariables scenarioStepB.params scenarioPool).filter
        (fun kv => kv.2 ≠ PyVal.vnone) =
      [("assignee", PyVal.vstr "jane")] := by
  refine ⟨rfl, rfl, ?_⟩
  exact rfl

/-- C4 counterexample: the descriptor built from a step whose only
parameter is the default-bearing reference has
`required_vars = ["priority"]`: the name of a reference with a
default is a member of the required set, contradicting the claim
that it never is. -/
theorem c4_counterexample :
    (mkToolDependency defaultParamStep 0).required_vars = ["priority"] := by
  exact rfl

/-- C8: `plan_tool_execution` is a total function into structured
results: an empty tool plan yields the structured empty-plan failure
rather than an exception, and every result either has a true success
flag or carries an error message. -/
theorem c8_structured_result (cfg : IntentConfig) (pool : List (String × PyVal)) :
    (cfg.tool_plan = [] →
      plan_tool_execution cfg pool =
        PlanResult.errEmpty "No tool plan defined for this intent") ∧
    ((plan_tool_execution cfg pool).success = true ∨
      ∃ msg, (plan_tool_execution cfg pool).errorMsg = some msg) := by
  constructor
  · intro h
    simp [plan_tool_execution, h]
  · cases hr : plan_tool_execution cfg pool with
    | errEmpty e => exact Or.inr ⟨e, rfl⟩
    | errMissing e mr mo av => exact Or.inr ⟨e, rfl⟩
    | ok a b c d e f => exact Or.inl rfl

/-- C8 witness: the empty-plan configuration produces the structured
failure. -/
theorem c8_witness :
    plan_tool_execution { tool_plan := [], vars := [] } [] =
      PlanResult.errEmpty "No tool plan defined for this intent" :=
  (c8_structured_result { tool_plan := [], vars := [] } []).1 rfl

/-!  Set-as-list lemmas. -/

theorem mem_addToSet {s : List String} {x n : String} :
    n ∈ addToSet s x ↔ n ∈ s ∨ n = x := by
  unfold addToSet
  by_cases h : x ∈ s
  · rw [if_pos h]
    exact ⟨Or.inl, fun hc => hc.elim id (fun e => e ▸ h)⟩
  · rw [if_neg h]
    simp [List.mem_append]

theorem mem_foldl_addToSet (xs : List String) :
    ∀ (acc : List String) (n : String),
    n ∈ xs.foldl addToSet acc ↔ n ∈ acc ∨ n ∈ xs := by
  induction xs with
  | nil => intro acc n; simp
  | cons x xs ih =>
    intro acc n
    simp only [List.foldl_cons, ih, mem_addToSet, List.mem_cons]
    tauto

theorem mem_unionSet {s xs : List String} {n : String} :
    n ∈ unionSet s xs ↔ n ∈ s ∨ n ∈ xs :=
  mem_foldl_addToSet xs s n

theorem mem_listSet {l : List String} {n : String} :
    n ∈ listSet l ↔ n ∈ l := by
  unfold listSet
  rw [mem_foldl_addToSet]
  simp

theorem listSet_eq_nil_iff {l : List String} :
    listSet l = [] ↔ l = [] := by
  constructor
  · intro h
    cases l with
    | nil => rfl
    | cons x xs =>
      exfalso
      have : x ∈ listSet (x :: xs) := mem_listSet.mpr (List.mem_cons_self x xs)
      rw [h] at this
      exact List.not_mem_nil x this
  · intro h; rw [h]; rfl

theorem subsetSet_iff {a b : List String} :
    subsetSet a b = true ↔ ∀ x ∈ a, x ∈ b := by
  unfold subsetSet
  simp [List.all_eq_true, List.elem_eq_mem]

theorem mem_foldProv {cur : List String} {ds : List ToolDependency} {n : String} :
    n ∈ foldProv cur ds ↔ n ∈ cur ∨ ∃ d ∈ ds, n ∈ d.provided_vars := by
  induction ds generalizing cur with
  | nil => simp [foldProv]
  | cons d ds ih =>
    simp only [foldProv, List.foldl_cons] at *
    rw [ih, mem_unionSet]
    simp only [List.mem_cons]
    constructor
    · rintro ((h | h) | ⟨d2, hd2, hn⟩)
      · exact Or.inl h
      · exact Or.inr ⟨d, Or.inl rfl, h⟩
      · exact Or.inr ⟨d2, Or.inr hd2, hn⟩
    · rintro (h | ⟨d2, (rfl | hd2), hn⟩)
      · exact Or.inl (Or.inl h)
      · exact Or.inl (Or.inr hn)
      · exact Or.inr ⟨d2, hd2, hn⟩

/-!  Characterizations of the per-step variable folds. -/

theorem mem_reqStep (acc : List String) (kv : String × PyVal) (n : String) :
    (n ∈ (match kv.2 with
      | PyVal.vstr value =>
        if pyStartsWith value "$" then
          if containsBars value then
            let var_part := pyTrim ((pySplitOnBars value).headD "")
            if pyStartsWith var_part "$" then addToSet acc (pyDrop var_part 1) else acc
          else addToSet acc (pyDrop value 1)
        else acc
      | _ => acc)) ↔
    n ∈ acc ∨ ∃ v, kv.2 = PyVal.vstr v ∧
      ((isBareRef v = true ∧ n = pyDrop v 1) ∨
       (isDefaultRef v = true ∧ n = defaultRefName v)) := by
  obtain ⟨k, val⟩ := kv
  cases val with
  | vstr v =>
    simp only []
    by_cases h1 : pyStartsWith v "$"
    · by_cases h2 : containsBars v
      · by_cases h3 : pyStartsWith (pyTrim ((pySplitOnBars v).head?.getD "")) "$"
        · simp [h1, h2, h3, mem_addToSet, isBareRef, isDefaultRef, defaultRefName]
        · simp [h1, h2, h3, isBareRef, isDefaultRef]
      · simp [h1, h2, mem_addToSet, isBareRef, isDefaultRef]
    · simp [h1, isBareRef, isDefaultRef]
  | vint m => simp
  | vnone => simp
  | vother => simp

theorem mem_stepRequiredVars {params : List (String × PyVal)} {n : String} :
    n ∈ stepRequiredVars params ↔
    ∃ kv ∈ params, ∃ v, kv.2 = PyVal.vstr v ∧
      ((isBareRef v = true ∧ n = pyDrop v 1) ∨
       (isDefaultRef v = true ∧ n = defaultRefName v)) := by
  have aux : ∀ (ps : List (String × PyVal)) (acc : List String),
      n ∈ ps.foldl
        (fun acc kv =>
          match kv.2 with
          | PyVal.vstr value =>
            if pyStartsWith value "$" then
              if containsBars value then
                let var_part := pyTrim ((pySplitOnBars value).headD "")
                if pyStartsWith var_part "$" then addToSet acc (pyDrop var_part 1) else acc
              else addToSet acc (pyDrop value 1)
            else acc
          | _ => acc) acc ↔
      n ∈ acc ∨ ∃ kv ∈ ps, ∃ v, kv.2 = PyVal.vstr v ∧
        ((isBareRef v = true ∧ n = pyDrop v 1) ∨
         (isDefaultRef v = true ∧ n = defaultRefName v)) := by
    intro ps
    induction ps with
    | nil => intro acc; simp
    | cons kv rest ih =>
      intro acc
      rw [List.foldl_cons, ih, mem_reqStep]
      simp only [List.mem_cons]
      constructor
      · rintro ((h | h) | ⟨kv2, hm, hv⟩)
        · exact Or.inl h
        · exact Or.inr ⟨kv, Or.inl rfl, h⟩
        · exact Or.inr ⟨kv2, Or.inr hm, hv⟩
      · rintro (h | ⟨kv2, (rfl | hm), hv⟩)
        · exact Or.inl (Or.inl h)
        · exact Or.inl (Or.inr hv)
        · exact Or.inr ⟨kv2, hm, hv⟩
  have := aux params []
  simpa [stepRequiredVars] using this

theorem mem_trulyStep (acc : List String) (kv : String × PyVal) (n : String) :
    (n ∈ (match kv.2 with
      | PyVal.vstr value =>
        if pyStartsWith value "$" then
          if containsBars value then acc
          else addToSet acc (pyDrop value 1)
        else acc
      | _ => acc)) ↔
    n ∈ acc ∨ ∃ v, kv.2 = PyVal.vstr v ∧ isBareRef v = true ∧ n = pyDrop v 1 := by
  obtain ⟨k, val⟩ := kv
  cases val with
  | vstr v =>
    simp only []
    by_cases h1 : pyStartsWith v "$"
    · by_cases h2 : containsBars v
      · simp [h1, h2, isBareRef]
      · simp [h1, h2, mem_addToSet, isBareRef]
    · simp [h1, isBareRef]
  | vint m => simp
  | vnone => simp
  | vother => simp

theorem mem_trulyRequired {params : List (String × PyVal)} {n : String} :
    n ∈ trulyRequired params ↔
    ∃ kv ∈ params, ∃ v, kv.2 = PyVal.vstr v ∧ isBareRef v = true ∧ n = pyDrop v 1 := by
  have aux : ∀ (ps : List (String × PyVal)) (acc : List String),
      n ∈ ps.foldl
        (fun acc kv =>
          match kv.2 with
          | PyVal.vstr value =>
            if pyStartsWith value "$" then
              if containsBars value then acc
              else addToSet acc (pyDrop value 1)
            else acc
          | _ => acc) acc ↔
      n ∈ acc ∨ ∃ kv ∈ ps, ∃ v, kv.2 = PyVal.vstr v ∧ isBareRef v = true ∧ n = pyDrop v 1 := by
    intro ps
    induction ps with
    | nil => intro acc; simp
    | cons kv rest ih =>
      intro acc
      rw [List.foldl_cons, ih, mem_trulyStep]
      simp only [List.mem_cons]
      constructor
      · rintro ((h | h) | ⟨kv2, hm, hv⟩)
        · exact Or.inl h
        · exact Or.inr ⟨kv, Or.inl rfl, h⟩
        · exact Or.inr ⟨kv2, Or.inr hm, hv⟩
      · rintro (h | ⟨kv2, (rfl | hm), hv⟩)
        · exact Or.inl (Or.inl h)
        · exact Or.inl (Or.inr hv)
        · exact Or.inr ⟨kv2, hm, hv⟩
  have := aux params []
  simpa [trulyRequired] using this

/-- A parameter record that is a bare reference to variable `n`. -/
def bareRefOf (kv : String × PyVal) (n : String) : Prop :=
  ∃ v, kv.2 = PyVal.vstr v ∧ isBareRef v = true ∧ n = pyDrop v 1

theorem stepClassifiedVars_eq_pair (reqS optS : List String) (ps : List (String × PyVal)) :
    ∀ acc : List String × List String,
    ps.foldl
      (fun acc kv =>
        match kv.2 with
        | PyVal.vstr value =>
          if pyStartsWith value "$" then
            if containsBars value then acc
            else
              let var_name := pyDrop value 1
              if var_name ∈ reqS then (addToSet acc.1 var_name, acc.2)
              else if var_name ∈ optS then (acc.1, addToSet acc.2 var_name)
              else (addToSet acc.1 var_name, acc.2)
          else acc
        | _ => acc) acc =
    (ps.foldl
      (fun acc1 kv =>
        match kv.2 with
        | PyVal.vstr value =>
          if pyStartsWith value "$" then
            if containsBars value then acc1
            else
              let var_name := pyDrop value 1
              if var_name ∈ reqS then addToSet acc1 var_name
              else if var_name ∈ optS then acc1
              else addToSet acc1 var_name
          else acc1
        | _ => acc1) acc.1,
     ps.foldl
      (fun acc2 kv =>
        match kv.2 with
        | PyVal.vstr value =>
          if pyStartsWith value "$" then
            if containsBars value then acc2
            else
              let var_name := pyDrop value 1
              if var_name ∈ reqS then acc2
              else if var_name ∈ optS then addToSet acc2 var_name
              else acc2
          else acc2
        | _ => acc2) acc.2) := by
  induction ps with
  | nil => intro acc; rfl
  | cons kv rest ih =>
    intro acc
    obtain ⟨k, val⟩ := kv
    simp only [List.foldl_cons]
    rw [ih]
    congr 1
    all_goals
      cases val with
      | vstr v =>
        by_cases h1 : pyStartsWith v "$"
        · by_cases h2 : containsBars v
          · simp [h1, h2]
          · by_cases hr : pyDrop v 1 ∈ reqS
            · simp [h1, h2, hr]
            · by_cases ho : pyDrop v 1 ∈ optS
              · simp [h1, h2, hr, ho]
              · simp [h1, h2, hr, ho]
        · simp [h1]
      | vint m => rfl
      | vnone => rfl
      | vother => rfl

theorem bareRefOf_iff {k v n : String} :
    bareRefOf (k, PyVal.vstr v) n ↔ isBareRef v = true ∧ n = pyDrop v 1 := by
  unfold bareRefOf
  constructor
  · rintro ⟨v2, hv2, hb, rfl⟩
    cases hv2
    exact ⟨hb, rfl⟩
  · rintro ⟨hb, rfl⟩
    exact ⟨v, rfl, hb, rfl⟩

theorem mem_classFold1 (reqS optS : List String) (ps : List (String × PyVal)) :
    ∀ (acc : List String) (n : String),
    n ∈ ps.foldl
      (fun acc1 kv =>
        match kv.2 with
        | PyVal.vstr value =>
          if pyStartsWith value "$" then
            if containsBars value then acc1
            else
              let var_name := pyDrop value 1
              if var_name ∈ reqS then addToSet acc1 var_name
              else if var_name ∈ optS then acc1
              else addToSet acc1 var_name
          else acc1
        | _ => acc1) acc ↔
    n ∈ acc ∨ ∃ kv ∈ ps, bareRefOf kv n ∧ (n ∈ reqS ∨ n ∉ optS) := by
  induction ps with
  | nil => intro acc n; simp
  | cons kv rest ih =>
    intro acc n
    obtain ⟨k, val⟩ := kv
    rw [List.foldl_cons, ih]
    have hstep : (n ∈ (match (k, val).2 with
        | PyVal.vstr value =>
          if pyStartsWith value "$" then
            if containsBars value then acc
            else
              let var_name := pyDrop value 1
              if var_name ∈ reqS then addToSet acc var_name
              else if var_name ∈ optS then acc
              else addToSet acc var_name
          else acc
        | _ => acc)) ↔
        n ∈ acc ∨ (bareRefOf (k, val) n ∧ (n ∈ reqS ∨ n ∉ optS)) := by
      cases val with
      | vstr v =>
        by_cases h1 : pyStartsWith v "$"
        · by_cases h2 : containsBars v
          · have hb : isBareRef v = false := by simp [isBareRef, h1, h2]
            have he : (match (k, PyVal.vstr v).2 with
              | PyVal.vstr value =>
                if pyStartsWith value "$" then
                  if containsBars value then acc
                  else
                    let var_name := pyDrop value 1
                    if var_name ∈ reqS then addToSet acc var_name
                    else if var_name ∈ optS then acc
                    else addToSet acc var_name
                else acc
              | _ => acc) = acc := by simp [h1, h2]
            rw [he]
            simp [bareRefOf_iff, hb]
          · have hb : isBareRef v = true := by simp [isBareRef, h1, h2]
            by_cases hr : pyDrop v 1 ∈ reqS
            · have he : (match (k, PyVal.vstr v).2 with
                | PyVal.vstr value =>
                  if pyStartsWith value "$" then
                    if containsBars value then acc
                    else
                      let var_name := pyDrop value 1
                      if var_name ∈ reqS then addToSet acc var_name
                      else if var_name ∈ optS then acc
                      else addToSet acc var_name
                  else acc
                | _ => acc) = addToSet acc (pyDrop v 1) := by simp [h1, h2, hr]
              rw [he, mem_addToSet]
              simp only [bareRefOf_iff, hb, true_and]
              constructor
              · rintro (h | rfl)
                · exact Or.inl h
                · exact Or.inr ⟨rfl, Or.inl hr⟩
              · rintro (h | ⟨rfl, hc⟩)
                · exact Or.inl h
                · exact Or.inr rfl
            · by_cases ho : pyDrop v 1 ∈ optS
              · have he : (match (k, PyVal.vstr v).2 with
                  | PyVal.vstr value =>
                    if pyStartsWith value "$" then
                      if containsBars value then acc
                      else
                        let var_name := pyDrop value 1
                        if var_name ∈ reqS then addToSet acc var_name
                        else if var_name ∈ optS then acc
                        else addToSet acc var_name
                    else acc
                  | _ => acc) = acc := by simp [h1, h2, hr, ho]
                rw [he]
                simp only [bareRefOf_iff, hb, true_and]
                constructor
                · exact Or.inl
                · rintro (h | ⟨rfl, (hc | hc)⟩)
                  · exact h
                  · exact absurd hc hr
                  · exact absurd ho hc
              · have he : (match (k, PyVal.vstr v).2 with
                  | PyVal.vstr value =>
                    if pyStartsWith value "$" then
                      if containsBars value then acc
                      else
                        let var_name := pyDrop value 1
                        if var_name ∈ reqS then addToSet acc var_name
                        else if var_name ∈ optS then acc
                        else addToSet acc var_name
                    else acc
                  | _ => acc) = addToSet acc (pyDrop v 1) := by simp [h1, h2, hr, ho]
                rw [he, mem_addToSet]
                simp only [bareRefOf_iff, hb, true_and]
                constructor
                · rintro (h | rfl)
                  · exact Or.inl h
                  · exact Or.inr ⟨rfl, Or.inr ho⟩
                · rintro (h | ⟨rfl, hc⟩)
                  · exact Or.inl h
                  · exact Or.inr rfl
        · have hb : isBareRef v = false := by simp [isBareRef, h1]
          have he : (match (k, PyVal.vstr v).2 with
            | PyVal.vstr value =>
              if pyStartsWith value "$" then
                if containsBars value then acc
                else
                  let var_name := pyDrop value 1
                  if var_name ∈ reqS then addToSet acc var_name
                  else if var_name ∈ optS then acc
                  else addToSet acc var_name
              else acc
            | _ => acc) = acc := by simp [h1]
          rw [he]
          simp [bareRefOf_iff, hb]
      | vint m => simp [bareRefOf]
      | vnone => simp [bareRefOf]
      | vother => simp [bareRefOf]
    rw [hstep]
    simp only [List.mem_cons]
    constructor
    · rintro ((h | h) | ⟨kv2, hm, hv⟩)
      · exact Or.inl h
      · exact Or.inr ⟨(k, val), Or.inl rfl, h⟩
      · exact Or.inr ⟨kv2, Or.inr hm, hv⟩
    · rintro (h | ⟨kv2, (rfl | hm), hv⟩)
      · exact Or.inl (Or.inl h)
      · exact Or.inl (Or.inr hv)
      · exact Or.inr ⟨kv2, hm, hv⟩

theorem mem_classFold2 (reqS optS : List String) (ps : List (String × PyVal)) :
    ∀ (acc : List String) (n : String),
    n ∈ ps.foldl
      (fun acc2 kv =>
        match kv.2 with
        | PyVal.vstr value =>
          if pyStartsWith value "$" then
            if containsBars value then acc2
            else
              let var_name := pyDrop value 1
              if var_name ∈ reqS then acc2
              else if var_name ∈ optS then addToSet acc2 var_name
              else acc2
          else acc2
        | _ => acc2) acc ↔
    n ∈ acc ∨ ∃ kv ∈ ps, bareRefOf kv n ∧ (n ∉ reqS ∧ n ∈ optS) := by
  induction ps with
  | nil => intro acc n; simp
  | cons kv rest ih =>
    intro acc n
    obtain ⟨k, val⟩ := kv
    rw [List.foldl_cons, ih]
    have hstep : (n ∈ (match (k, val).2 with
        | PyVal.vstr value =>
          if pyStartsWith value "$" then
            if containsBars value then acc
            else
              let var_name := pyDrop value 1
              if var_name ∈ reqS then acc
              else if var_name ∈ optS then addToSet acc var_name
              else acc
          else acc
        | _ => acc)) ↔
        n ∈ acc ∨ (bareRefOf (k, val) n ∧ (n ∉ reqS ∧ n ∈ optS)) := by
      cases val with
      | vstr v =>
        by_cases h1 : pyStartsWith v "$"
        · by_cases h2 : containsBars v
          · have hb : isBareRef v = false := by simp [isBareRef, h1, h2]
            have he : (match (k, PyVal.vstr v).2 with
              | PyVal.vstr value =>
                if pyStartsWith value "$" then
                  if containsBars value then acc
                  else
                    let var_name := pyDrop value 1
                    if var_name ∈ reqS then acc
                    else if var_name ∈ optS then addToSet acc var_name
                    else acc
                else acc
              | _ => acc) = acc := by simp [h1, h2]
            rw [he]
            simp [bareRefOf_iff, hb]
          · have hb : isBareRef v = true := by simp [isBareRef, h1, h2]
            by_cases hr : pyDrop v 1 ∈ reqS
            · have he : (match (k, PyVal.vstr v).2 with
                | PyVal.vstr value =>
                  if pyStartsWith value "$" then
                    if containsBars value then acc
                    else
                      let var_name := pyDrop value 1
                      if var_name ∈ reqS then acc
                      else if var_name ∈ optS then addToSet acc var_name
                      else acc
                  else acc
                | _ => acc) = acc := by simp [h1, h2, hr]
              rw [he]
              simp only [bareRefOf_iff, hb, true_and]
              constructor
              · exact Or.inl
              · rintro (h | ⟨rfl, hc, _⟩)
                · exact h
                · exact absurd hr hc
            · by_cases ho : pyDrop v 1 ∈ optS
              · have he : (match (k, PyVal.vstr v).2 with
                  | PyVal.vstr value =>
                    if pyStartsWith value "$" then
                      if containsBars value then acc
                      else
                        let var_name := pyDrop value 1
                        if var_name ∈ reqS then acc
                        else if var_name ∈ optS then addToSet acc var_name
                        else acc
                    else acc
                  | _ => acc) = addToSet acc (pyDrop v 1) := by simp [h1, h2, hr, ho]
                rw [he, mem_addToSet]
                simp only [bareRefOf_iff, hb, true_and]
                constructor
                · rintro (h | rfl)
                  · exact Or.inl h
                  · exact Or.inr ⟨rfl, hr, ho⟩
                · rintro (h | ⟨rfl, hc⟩)
                  · exact Or.inl h
                  · exact Or.inr rfl
              · have he : (match (k, PyVal.vstr v).2 with
                  | PyVal.vstr value =>
                    if pyStartsWith value "$" then
                      if containsBars value then acc
                      else
                        let var_name := pyDrop value 1
                        if var_name ∈ reqS then acc
                        else if var_name ∈ optS then addToSet acc var_name
                        else acc
                    else acc
                  | _ => acc) = acc := by simp [h1, h2, hr, ho]
                rw [he]
                simp only [bareRefOf_iff, hb, true_and]
                constructor
                · exact Or.inl
                · rintro (h | ⟨rfl, _, hc⟩)
                  · exact h
                  · exact absurd hc ho
        · have hb : isBareRef v = false := by simp [isBareRef, h1]
          have he : (match (k, PyVal.vstr v).2 with
            | PyVal.vstr value =>
              if pyStartsWith value "$" then
                if containsBars value then acc
                else
                  let var_name := pyDrop value 1
                  if var_name ∈ reqS then acc
                  else if var_name ∈ optS then addToSet acc var_name
                  else acc
              else acc
            | _ => acc) = acc := by simp [h1]
          rw [he]
          simp [bareRefOf_iff, hb]
      | vint m => simp [bareRefOf]
      | vnone => simp [bareRefOf]
      | vother => simp [bareRefOf]
    rw [hstep]
    simp only [List.mem_cons]
    constructor
    · rintro ((h | h) | ⟨kv2, hm, hv⟩)
      · exact Or.inl h
      · exact Or.inr ⟨(k, val), Or.inl rfl, h⟩
      · exact Or.inr ⟨kv2, Or.inr hm, hv⟩
    · rintro (h | ⟨kv2, (rfl | hm), hv⟩)
      · exact Or.inl (Or.inl h)
      · exact Or.inl (Or.inr hv)
      · exact Or.inr ⟨kv2, hm, hv⟩

theorem mem_classified1 {reqS optS : List String} {ps : List (String × PyVal)} {n : String} :
    n ∈ (stepClassifiedVars reqS optS ps).1 ↔
    ∃ kv ∈ ps, bareRefOf kv n ∧ (n ∈ reqS ∨ n ∉ optS) := by
  unfold stepClassifiedVars
  rw [stepClassifiedVars_eq_pair]
  have := mem_classFold1 reqS optS ps [] n
  simpa using this

theorem mem_classified2 {reqS optS : List String} {ps : List (String × PyVal)} {n : String} :
    n ∈ (stepClassifiedVars reqS optS ps).2 ↔
    ∃ kv ∈ ps, bareRefOf kv n ∧ (n ∉ reqS ∧ n ∈ optS) := by
  unfold stepClassifiedVars
  rw [stepClassifiedVars_eq_pair]
  have := mem_classFold2 reqS optS ps [] n
  simpa using this

/-!  Validator lemmas. -/

theorem validateLoop_append (reqS optS : List String) (d1 d2 : List ToolDependency) :
    ∀ (cur mr mo : List String),
    validateLoop reqS optS (d1 ++ d2) cur mr mo =
      validateLoop reqS optS d2 (foldProv cur d1)
        (validateLoop reqS optS d1 cur mr mo).1
        (validateLoop reqS optS d1 cur mr mo).2 := by
  induction d1 with
  | nil => intro cur mr mo; rfl
  | cons d rest ih =>
    intro cur mr mo
    simp only [List.cons_append, validateLoop, List.append_eq]
    rw [ih]
    simp [foldProv]

theorem validateLoop_acc (reqS optS : List String) (ds : List ToolDependency) :
    ∀ (cur mr mo : List String),
    validateLoop reqS optS ds cur mr mo =
      (mr ++ (validateLoop reqS optS ds cur [] []).1,
       mo ++ (validateLoop reqS optS ds cur [] []).2) := by
  induction ds with
  | nil => intro cur mr mo; simp [validateLoop]
  | cons d rest ih =>
    intro cur mr mo
    simp only [validateLoop, List.nil_append]
    rw [ih (unionSet cur d.provided_vars)
        (mr ++ setDiff (stepClassifiedVars reqS optS d.params).1 cur)
        (mo ++ setDiff (stepClassifiedVars reqS optS d.params).2 cur),
      ih (unionSet cur d.provided_vars)
        (setDiff (stepClassifiedVars reqS optS d.params).1 cur)
        (setDiff (stepClassifiedVars reqS optS d.params).2 cur)]
    simp [List.append_assoc]

theorem classBody_bars_eq (reqS optS : List String) (acc : List String × List String)
    (k v : String) (h : containsBars v = true) :
    (match (k, PyVal.vstr v).2 with
      | PyVal.vstr value =>
        if pyStartsWith value "$" then
          if containsBars value then acc
          else
            let var_name := pyDrop value 1
            if var_name ∈ reqS then (addToSet acc.1 var_name, acc.2)
            else if var_name ∈ optS then (acc.1, addToSet acc.2 var_name)
            else (addToSet acc.1 var_name, acc.2)
        else acc
      | _ => acc) = acc := by
  by_cases h1 : pyStartsWith v "$"
  · simp [h1, h]
  · simp [h1]

theorem stepClassifiedVars_filter_bars (reqS optS : List String) (ps : List (String × PyVal)) :
    stepClassifiedVars reqS optS (ps.filter (fun kv =>
      match kv.2 with
      | PyVal.vstr v => !(containsBars v)
      | _ => true)) = stepClassifiedVars reqS optS ps := by
  unfold stepClassifiedVars
  suffices haux : ∀ acc : List String × List String,
      (ps.filter (fun kv =>
        match kv.2 with
        | PyVal.vstr v => !(containsBars v)
        | _ => true)).foldl
        (fun acc kv =>
          match kv.2 with
          | PyVal.vstr value =>
            if pyStartsWith value "$" then
              if containsBars value then acc
              else
                let var_name := pyDrop value 1
                if var_name ∈ reqS then (addToSet acc.1 var_name, acc.2)
                else if var_name ∈ optS then (acc.1, addToSet acc.2 var_name)
                else (addToSet acc.1 var_name, acc.2)
            else acc
          | _ => acc) acc =
      ps.foldl
        (fun acc kv =>
          match kv.2 with
          | PyVal.vstr value =>
            if pyStartsWith value "$" then
              if containsBars value then acc
              else
                let var_name := pyDrop value 1
                if var_name ∈ reqS then (addToSet acc.1 var_name, acc.2)
                else if var_name ∈ optS then (acc.1, addToSet acc.2 var_name)
                else (addToSet acc.1 var_name, acc.2)
            else acc
          | _ => acc) acc by
    exact haux ([], [])
  induction ps with
  | nil => intro acc; rfl
  | cons kv rest ih =>
    intro acc
    obtain ⟨k, val⟩ := kv
    cases val with
    | vstr v =>
      by_cases h2 : containsBars v
      · have hdrop : (List.filter (fun kv =>
            match kv.2 with
            | PyVal.vstr v => !(containsBars v)
            | _ => true) ((k, PyVal.vstr v) :: rest)) = (List.filter (fun kv =>
            match kv.2 with
            | PyVal.vstr v => !(containsBars v)
            | _ => true) rest) := by
          rw [List.filter_cons]
          simp [h2]
        rw [hdrop, ih, List.foldl_cons, classBody_bars_eq reqS optS acc k v h2]
      · have hkeep : (List.filter (fun kv =>
            match kv.2 with
            | PyVal.vstr v => !(containsBars v)
            | _ => true) ((k, PyVal.vstr v) :: rest)) = (k, PyVal.vstr v) :: (List.filter (fun kv =>
            match kv.2 with
            | PyVal.vstr v => !(containsBars v)
            | _ => true) rest) := by
          rw [List.filter_cons]
          simp [h2]
        rw [hkeep, List.foldl_cons, List.foldl_cons, ih]
    | vint m =>
      have hkeep : (List.filter (fun kv =>
          match kv.2 with
          | PyVal.vstr v => !(containsBars v)
          | _ => true) ((k, PyVal.vint m) :: rest)) = (k, PyVal.vint m) :: (List.filter (fun kv =>
          match kv.2 with
          | PyVal.vstr v => !(containsBars v)
          | _ => true) rest) := by
        rw [List.filter_cons]
        simp
      rw [hkeep, List.foldl_cons, List.foldl_cons, ih]
    | vnone =>
      have hkeep : (List.filter (fun kv =>
          match kv.2 with
          | PyVal.vstr v => !(containsBars v)
          | _ => true) ((k, PyVal.vnone) :: rest)) = (k, PyVal.vnone) :: (List.filter (fun kv =>
          match kv.2 with
          | PyVal.vstr v => !(containsBars v)
          | _ => true) rest) := by
        rw [List.filter_cons]
        simp
      rw [hkeep, List.foldl_cons, List.foldl_cons, ih]
    | vother =>
      have hkeep : (List.filter (fun kv =>
          match kv.2 with
          | PyVal.vstr v => !(containsBars v)
          | _ => true) ((k, PyVal.vother) :: rest)) = (k, PyVal.vother) :: (List.filter (fun kv =>
          match kv.2 with
          | PyVal.vstr v => !(containsBars v)
          | _ => true) rest) := by
        rw [List.filter_cons]
        simp
      rw [hkeep, List.foldl_cons, List.foldl_cons, ih]

theorem validateLoop_eraseDefaults (reqS optS : List String) (ds : List ToolDependency) :
    ∀ (cur mr mo : List String),
    validateLoop reqS optS (ds.map eraseDefaultParams) cur mr mo =
      validateLoop reqS optS ds cur mr mo := by
  induction ds with
  | nil => intro cur mr mo; rfl
  | cons d rest ih =>
    intro cur mr mo
    simp only [List.map_cons, validateLoop]
    have hcl : stepClassifiedVars reqS optS (eraseDefaultParams d).params =
        stepClassifiedVars reqS optS d.params := by
      show stepClassifiedVars reqS optS (d.params.filter _) = _
      exact stepClassifiedVars_filter_bars reqS optS d.params
    have hpv : (eraseDefaultParams d).provided_vars = d.provided_vars := rfl
    rw [hcl, hpv, ih]

/-!  Scheduler lemmas. -/

theorem insertByIdx_of_le (x : Nat × ToolDependency) (l : List (Nat × ToolDependency))
    (h : ∀ y ∈ l, x.2.step_index ≤ y.2.step_index) : insertByIdx x l = x :: l := by
  cases l with
  | nil => rfl
  | cons y ys =>
    unfold insertByIdx
    rw [if_pos (h y (List.mem_cons_self y ys))]

theorem sortByIdx_of_sorted (l : List (Nat × ToolDependency))
    (h : l.Pairwise (fun a b => a.2.step_index ≤ b.2.step_index)) : sortByIdx l = l := by
  induction l with
  | nil => rfl
  | cons x xs ih =>
    have hx : ∀ y ∈ xs, x.2.step_index ≤ y.2.step_index := (List.pairwise_cons.mp h).1
    have hxs : xs.Pairwise (fun a b => a.2.step_index ≤ b.2.step_index) :=
      (List.pairwise_cons.mp h).2
    show insertByIdx x (sortByIdx xs) = x :: xs
    rw [ih hxs, insertByIdx_of_le x xs hx]

theorem enumFrom_append_one {α : Type} (d : α) : ∀ (l : List α) (n : Nat),
    List.enumFrom n (l ++ [d]) = List.enumFrom n l ++ [(n + l.length, d)] := by
  intro l
  induction l with
  | nil => intro n; simp
  | cons x xs ih =>
    intro n
    show (n, x) :: List.enumFrom (n + 1) (xs ++ [d]) = _
    rw [ih]
    have harith : n + 1 + xs.length = n + (x :: xs).length := by
      simp only [List.length_cons]
      omega
    rw [harith]
    rfl

theorem enum_append_one {α : Type} (l : List α) (d : α) :
    (l ++ [d]).enum = l.enum ++ [(l.length, d)] := by
  show List.enumFrom 0 (l ++ [d]) = List.enumFrom 0 l ++ [(l.length, d)]
  rw [enumFrom_append_one]
  simp

theorem eraseIdx_append_cons {α : Type} (d : α) : ∀ (r t : List α),
    (r ++ d :: t).eraseIdx r.length = r ++ t := by
  intro r
  induction r with
  | nil => intro t; rfl
  | cons x xs ih =>
    intro t
    simp only [List.cons_append, List.length_cons, List.eraseIdx_cons_succ, ih]

theorem map_snd_enumFrom_filter {α : Type} (P : α → Bool) : ∀ (l : List α) (n : Nat),
    ((List.enumFrom n l).filter (fun p => P p.2)).map Prod.snd = l.filter P := by
  intro l
  induction l with
  | nil => intro n; rfl
  | cons x xs ih =>
    intro n
    simp only [List.enumFrom, List.filter_cons]
    by_cases hx : P x
    · simp only [hx, if_pos]
      simp [ih]
    · simp only [hx]
      simp [ih, hx]

theorem popRound_spec (P : ToolDependency → Bool) (r : List ToolDependency) :
    ∀ (t : List ToolDependency) (ordered : List RawStep) (cur : List String),
    popRound ((r.enum.filter (fun p => P p.2)).reverse) ordered cur (r ++ t) =
      (ordered ++ ((r.filter P).map (fun d => d.original_step)).reverse,
       foldProv cur (r.filter P).reverse,
       (r.filter (fun d => !(P d))) ++ t) := by
  induction r using List.reverseRecOn with
  | nil =>
    intro t ordered cur
    simp [popRound, foldProv]
  | append_singleton r d ih =>
    intro t ordered cur
    rw [enum_append_one]
    by_cases hP : P d
    · have hpairs : (((r.enum ++ [(r.length, d)]).filter (fun p => P p.2)).reverse) =
          (r.length, d) :: (r.enum.filter (fun p => P p.2)).reverse := by
        rw [List.filter_append]
        simp [hP]
      rw [hpairs]
      have hrem : (r ++ [d]) ++ t = r ++ (d :: t) := by
        rw [List.append_assoc]
        rfl
      rw [hrem]
      show popRound ((r.enum.filter (fun p => P p.2)).reverse)
        (ordered ++ [d.original_step]) (unionSet cur d.provided_vars)
        ((r ++ d :: t).eraseIdx r.length) = _
      rw [eraseIdx_append_cons, ih]
      rw [List.filter_append, List.filter_append]
      simp [hP, foldProv, List.append_assoc]
    · have hpairs : (((r.enum ++ [(r.length, d)]).filter (fun p => P p.2)).reverse) =
          (r.enum.filter (fun p => P p.2)).reverse := by
        rw [List.filter_append]
        simp [hP]
      rw [hpairs]
      have hrem : (r ++ [d]) ++ t = r ++ (d :: t) := by
        rw [List.append_assoc]
        rfl
      rw [hrem, ih]
      rw [List.filter_append, List.filter_append]
      simp [hP]

theorem popRound_spec_nil (P : ToolDependency → Bool) (r : List ToolDependency)
    (ordered : List RawStep) (cur : List String) :
    popRound ((r.enum.filter (fun p => P p.2)).reverse) ordered cur r =
      (ordered ++ ((r.filter P).map (fun d => d.original_step)).reverse,
       foldProv cur (r.filter P).reverse,
       r.filter (fun d => !(P d))) := by
  have h := popRound_spec P r [] ordered cur
  simpa using h

theorem enum_pairwise_le (remaining : List ToolDependency)
    (h : remaining.Pairwise (fun a b => a.step_index < b.step_index)) :
    remaining.enum.Pairwise (fun a b => a.2.step_index ≤ b.2.step_index) := by
  have h1 : (remaining.enum.map Prod.snd).Pairwise
      (fun a b => a.step_index < b.step_index) := by
    rw [List.enum_map_snd]
    exact h
  have h2 := List.pairwise_map.mp h1
  exact h2.imp (fun hab => Nat.le_of_lt hab)

theorem scheduleLoop_round (fuel : Nat) (remaining : List ToolDependency)
    (ordered : List RawStep) (cur : List String)
    (hne : remaining ≠ [])
    (hp : remaining.Pairwise (fun a b => a.step_index < b.step_index)) :
    scheduleLoop (fuel + 1) remaining ordered cur =
      scheduleLoop fuel (remaining.filter (fun d => !(roundPred remaining cur d)))
        (ordered ++ ((remaining.filter (roundPred remaining cur)).map
          (fun d => d.original_step)).reverse)
        (foldProv cur (remaining.filter (roundPred remaining cur)).reverse) := by
  have hemp : remaining.isEmpty = false := by
    cases remaining with
    | nil => exact absurd rfl hne
    | cons x xs => rfl
  by_cases hex : (executableNow remaining cur).isEmpty
  · have hpred : roundPred remaining cur = fun _ => true := by
      unfold roundPred
      rw [if_pos hex]
    have henum : remaining.enum =
        remaining.enum.filter (fun p => (fun (_ : ToolDependency) => true) p.2) := by
      simp
    show (if remaining.isEmpty then ordered
      else
        let execNow := executableNow remaining cur
        let execNow2 := if execNow.isEmpty then remaining.enum else execNow
        let out := popRound (sortByIdx execNow2).reverse ordered cur remaining
        scheduleLoop fuel out.2.2 out.1 out.2.1) = _
    rw [hemp]
    simp only [Bool.false_eq_true, if_false, hex, if_pos]
    have hsorted : sortByIdx remaining.enum = remaining.enum :=
      sortByIdx_of_sorted remaining.enum (enum_pairwise_le remaining hp)
    rw [hsorted, henum]
    have hpop := popRound_spec_nil (fun (_ : ToolDependency) => true) remaining ordered cur
    rw [hpop, hpred]
  · have hpred : roundPred remaining cur =
        fun d => subsetSet (trulyRequired d.params) cur := by
      unfold roundPred
      rw [if_neg hex]
    have hexeq : executableNow remaining cur =
        remaining.enum.filter
          (fun p => (fun d => subsetSet (trulyRequired d.params) cur) p.2) := rfl
    show (if remaining.isEmpty then ordered
      else
        let execNow := executableNow remaining cur
        let execNow2 := if execNow.isEmpty then remaining.enum else execNow
        let out := popRound (sortByIdx execNow2).reverse ordered cur remaining
        scheduleLoop fuel out.2.2 out.1 out.2.1) = _
    rw [hemp]
    simp only [Bool.false_eq_true, if_false, hex, if_neg]
    have hsorted : sortByIdx (executableNow remaining cur) = executableNow remaining cur := by
      apply sortByIdx_of_sorted
      exact (enum_pairwise_le remaining hp).filter _
    rw [hsorted, hexeq]
    have hpop := popRound_spec_nil (fun d => subsetSet (trulyRequired d.params) cur)
      remaining ordered cur
    rw [hpop, hpred]

theorem roundPred_exists (remaining : List ToolDependency) (cur : List String)
    (hne : remaining ≠ []) :
    ∃ d ∈ remaining, roundPred remaining cur d = true := by
  by_cases hex : (executableNow remaining cur).isEmpty
  · obtain ⟨d, hd⟩ := List.exists_mem_of_ne_nil remaining hne
    refine ⟨d, hd, ?_⟩
    unfold roundPred
    rw [if_pos hex]
  · have hne2 : executableNow remaining cur ≠ [] := by
      intro hc
      rw [hc] at hex
      exact hex rfl
    obtain ⟨p, hpmem⟩ := List.exists_mem_of_ne_nil _ hne2
    have hp2 := List.mem_filter.mp hpmem
    have hmem : p.2 ∈ remaining := by
      have hsnd := List.enum_map_snd remaining
      rw [← hsnd]
      exact List.mem_map_of_mem Prod.snd hp2.1
    refine ⟨p.2, hmem, ?_⟩
    unfold roundPred
    rw [if_neg hex]
    exact hp2.2

theorem filter_not_length_lt {l : List ToolDependency} {p : ToolDependency → Bool}
    (h : ∃ d ∈ l, p d = true) :
    (l.filter (fun d => !(p d))).length < l.length := by
  rw [List.length_filter_lt_length_iff_exists]
  obtain ⟨d, hd, hp⟩ := h
  exact ⟨d, hd, by simp [hp]⟩

theorem scheduleLoop_nil (ordered : List RawStep) (cur : List String) :
    ∀ k, scheduleLoop k [] ordered cur = ordered := by
  intro k
  cases k with
  | zero => rfl
  | succ k => rfl

theorem scheduleLoop_perm : ∀ (fuel : Nat) (remaining : List ToolDependency)
    (ordered : List RawStep) (cur : List String),
    remaining.length ≤ fuel →
    remaining.Pairwise (fun a b => a.step_index < b.step_index) →
    List.Perm (scheduleLoop fuel remaining ordered cur)
      (ordered ++ remaining.map (fun d => d.original_step)) := by
  intro fuel
  induction fuel with
  | zero =>
    intro remaining ordered cur hlen hp
    have h0 : remaining = [] := List.eq_nil_of_length_eq_zero (Nat.le_zero.mp hlen)
    subst h0
    simp [scheduleLoop]
  | succ fuel ih =>
    intro remaining ordered cur hlen hp
    by_cases hne : remaining = []
    · subst hne
      rw [scheduleLoop_nil]
      simp
    · rw [scheduleLoop_round fuel remaining ordered cur hne hp]
      have hexists := roundPred_exists remaining cur hne
      have hlt : (remaining.filter (fun d => !(roundPred remaining cur d))).length <
          remaining.length := filter_not_length_lt hexists
      have hlen' : (remaining.filter (fun d => !(roundPred remaining cur d))).length ≤ fuel := by
        omega
      have hp' : (remaining.filter (fun d => !(roundPred remaining cur d))).Pairwise
          (fun a b => a.step_index < b.step_index) := hp.filter _
      have hmain := ih (remaining.filter (fun d => !(roundPred remaining cur d)))
        (ordered ++ ((remaining.filter (roundPred remaining cur)).map
          (fun d => d.original_step)).reverse)
        (foldProv cur (remaining.filter (roundPred remaining cur)).reverse)
        hlen' hp'
      refine hmain.trans ?_
      rw [List.append_assoc]
      apply List.Perm.append_left ordered
      refine (List.Perm.append_right _ (List.reverse_perm _)).trans ?_
      have hfap := (List.filter_append_perm (roundPred remaining cur) remaining).map
        (fun d => d.original_step)
      rw [List.map_append] at hfap
      exact hfap

theorem scheduleLoop_fuel_add : ∀ (fuel k : Nat) (remaining : List ToolDependency)
    (ordered : List RawStep) (cur : List String),
    remaining.length ≤ fuel →
    remaining.Pairwise (fun a b => a.step_index < b.step_index) →
    scheduleLoop (fuel + k) remaining ordered cur =
      scheduleLoop fuel remaining ordered cur := by
  intro fuel
  induction fuel with
  | zero =>
    intro k remaining ordered cur hlen hp
    have h0 : remaining = [] := List.eq_nil_of_length_eq_zero (Nat.le_zero.mp hlen)
    subst h0
    rw [scheduleLoop_nil]
    rfl
  | succ fuel ih =>
    intro k remaining ordered cur hlen hp
    by_cases hne : remaining = []
    · subst hne
      rw [scheduleLoop_nil, scheduleLoop_nil]
    · have heq : fuel + 1 + k = (fuel + k) + 1 := by omega
      rw [heq, scheduleLoop_round (fuel + k) remaining ordered cur hne hp,
        scheduleLoop_round fuel remaining ordered cur hne hp]
      have hexists := roundPred_exists remaining cur hne
      have hlt : (remaining.filter (fun d => !(roundPred remaining cur d))).length <
          remaining.length := filter_not_length_lt hexists
      have hlen' : (remaining.filter (fun d => !(roundPred remaining cur d))).length ≤ fuel := by
        omega
      have hp' : (remaining.filter (fun d => !(roundPred remaining cur d))).Pairwise
          (fun a b => a.step_index < b.step_index) := hp.filter _
      exact ih k _ _ _ hlen' hp'

theorem analyze_map_orig (plan : List RawStep) :
    (analyze_dependencies plan).map (fun d => d.original_step) = plan := by
  unfold analyze_dependencies
  rw [List.map_map]
  have hc : ((fun d => d.original_step) ∘ (fun p : Nat × RawStep =>
      mkToolDependency p.2 p.1)) = Prod.snd := rfl
  rw [hc, List.enum_map_snd]

theorem analyze_pairwise (plan : List RawStep) :
    (analyze_dependencies plan).Pairwise (fun a b => a.step_index < b.step_index) := by
  unfold analyze_dependencies
  rw [List.pairwise_map]
  have h1 : (plan.enum.map Prod.fst).Pairwise (fun a b => a < b) := by
    rw [List.enum_map_fst]
    exact List.pairwise_lt_range plan.length
  have h2 := List.pairwise_map.mp h1
  exact h2.imp (fun hab => hab)

/-- C5: for every plan and initial pool, the scheduling loop run with
fuel equal to the number of descriptors already reaches a fixed point
(any extra rounds change nothing, so at most `length` rounds are
used), and its output is a permutation of the input plan: every step
appears exactly once, also when no step is ever ready and the
fallback round fires. -/
theorem c5_scheduler_terminates_permutes (plan : List RawStep) (available : List String) :
    List.Perm (reorder_tool_plan (analyze_dependencies plan) available) plan ∧
    ∀ k, scheduleLoop ((analyze_dependencies plan).length + k)
        (analyze_dependencies plan) [] available =
      reorder_tool_plan (analyze_dependencies plan) available := by
  constructor
  · have h := scheduleLoop_perm (analyze_dependencies plan).length
      (analyze_dependencies plan) [] available le_rfl (analyze_pairwise plan)
    rw [List.nil_append, analyze_map_orig] at h
    exact h
  · intro k
    exact scheduleLoop_fuel_add (analyze_dependencies plan).length k
      (analyze_dependencies plan) [] available le_rfl (analyze_pairwise plan)

/-- C4 amended: the required-variable set of a descriptor contains
the names of the bare variable references and also, for every
parameter whose value starts with `$` and contains `||` and whose
trimmed left part starts with `$`, the name of that left part;
default-bearing references are therefore members, not excluded. -/
theorem c4_required_vars_characterized (step : RawStep) (i : Nat) (n : String) :
    n ∈ (mkToolDependency step i).required_vars ↔
    ∃ kv ∈ step.params, ∃ v, kv.2 = PyVal.vstr v ∧
      ((isBareRef v = true ∧ n = pyDrop v 1) ∨
       (isDefaultRef v = true ∧ n = defaultRefName v)) := by
  show n ∈ stepRequiredVars step.params ↔ _
  exact mem_stepRequiredVars

theorem validate_dependencies_eq (deps : List ToolDependency) (available : List String)
    (cfgVars : List VarDef) :
    validate_dependencies deps available cfgVars =
      (((validateLoop (schemaPartition cfgVars).1 (schemaPartition cfgVars).2
          deps available [] []).1.length == 0),
       listSet (validateLoop (schemaPartition cfgVars).1 (schemaPartition cfgVars).2
          deps available [] []).1,
       listSet (validateLoop (schemaPartition cfgVars).1 (schemaPartition cfgVars).2
          deps available [] []).2) := rfl

theorem validateLoop_mr_mono (reqS optS : List String) (ds : List ToolDependency) :
    ∀ (cur mr mo : List String) (n : String),
    n ∈ mr → n ∈ (validateLoop reqS optS ds cur mr mo).1 := by
  induction ds with
  | nil => intro cur mr mo n h; exact h
  | cons d rest ih =>
    intro cur mr mo n h
    simp only [validateLoop]
    exact ih _ _ _ n (List.mem_append_left _ h)

theorem validateLoop_mo_sub (reqS optS : List String) (ds : List ToolDependency) :
    ∀ (cur mr mo : List String) (n : String),
    n ∈ (validateLoop reqS optS ds cur mr mo).2 → n ∈ mo ∨ n ∈ optS := by
  induction ds with
  | nil => intro cur mr mo n h; exact Or.inl h
  | cons d rest ih =>
    intro cur mr mo n h
    simp only [validateLoop] at h
    rcases ih _ _ _ n h with h' | h'
    · rcases List.mem_append.mp h' with h'' | h''
      · exact Or.inl h''
      · have hmem := (List.mem_filter.mp h'').1
        obtain ⟨kv, _, _, _, hin⟩ := mem_classified2.mp hmem
        exact Or.inr hin
    · exact Or.inr h'

theorem validateLoop_mr_at (reqS optS : List String) (d1 : List ToolDependency)
    (dk : ToolDependency) (rest2 : List ToolDependency) (cur : List String) (n : String)
    (hn : n ∈ (stepClassifiedVars reqS optS dk.params).1)
    (hnc : n ∉ foldProv cur d1) :
    n ∈ (validateLoop reqS optS (d1 ++ dk :: rest2) cur [] []).1 := by
  rw [validateLoop_append]
  show n ∈ (validateLoop reqS optS rest2 _
    ((validateLoop reqS optS d1 cur [] []).1 ++
      setDiff (stepClassifiedVars reqS optS dk.params).1 (foldProv cur d1))
    ((validateLoop reqS optS d1 cur [] []).2 ++
      setDiff (stepClassifiedVars reqS optS dk.params).2 (foldProv cur d1))).1
  apply validateLoop_mr_mono
  apply List.mem_append_right
  unfold setDiff
  rw [List.mem_filter]
  refine ⟨hn, ?_⟩
  simp [List.contains, List.elem_eq_mem, hnc]

/-- C6: the validator result has `ok` true exactly when the
deduplicated missing-required set is empty; parameters containing the
default separator `||` contribute nothing (erasing them all changes
no validator output); and the variables passed to any suffix of the
descriptor list are the initial pool extended by every earlier
descriptor's provided variables, independent of whether the earlier
requirements were met. -/
theorem c6_validator_contract (deps deps2 : List ToolDependency)
    (available : List String) (cfgVars : List VarDef) :
    ((validate_dependencies deps available cfgVars).1 = true ↔
      (validate_dependencies deps available cfgVars).2.1 = []) ∧
    validate_dependencies (deps.map eraseDefaultParams) available cfgVars =
      validate_dependencies deps available cfgVars ∧
    validateLoop (schemaPartition cfgVars).1 (schemaPartition cfgVars).2
        (deps ++ deps2) available [] [] =
      validateLoop (schemaPartition cfgVars).1 (schemaPartition cfgVars).2 deps2
        (foldProv available deps)
        (validateLoop (schemaPartition cfgVars).1 (schemaPartition cfgVars).2
          deps available [] []).1
        (validateLoop (schemaPartition cfgVars).1 (schemaPartition cfgVars).2
          deps available [] []).2 := by
  refine ⟨?_, ?_, ?_⟩
  · rw [validate_dependencies_eq]
    simp only [beq_iff_eq, List.length_eq_zero, listSet_eq_nil_iff]
  · rw [validate_dependencies_eq, validate_dependencies_eq, validateLoop_eraseDefaults]
  · exact validateLoop_append (schemaPartition cfgVars).1 (schemaPartition cfgVars).2
      deps deps2 available [] []

/-- C7: a variable name absent from both schema partitions is never
reported missing-optional; and when some descriptor references it
bare while it is not available before that descriptor runs, it is
reported missing-required. -/
theorem c7_unknown_vars_required (deps : List ToolDependency) (available : List String)
    (cfgVars : List VarDef) (n : String)
    (h1 : n ∉ (schemaPartition cfgVars).1) (h2 : n ∉ (schemaPartition cfgVars).2) :
    n ∉ (validate_dependencies deps available cfgVars).2.2 ∧
    ∀ k, (hk : k < deps.length) →
      n ∈ trulyRequired (deps.get ⟨k, hk⟩).params →
      n ∉ foldProv available (deps.take k) →
      n ∈ (validate_dependencies deps available cfgVars).2.1 := by
  constructor
  · intro hc
    rw [validate_dependencies_eq] at hc
    have hc2 := mem_listSet.mp hc
    rcases validateLoop_mo_sub _ _ deps available [] [] n hc2 with h | h
    · exact List.not_mem_nil n h
    · exact h2 h
  · intro k hk htr hnc
    rw [validate_dependencies_eq]
    simp only []
    rw [mem_listSet]
    have hsplit : deps = deps.take k ++ deps.get ⟨k, hk⟩ :: deps.drop (k + 1) := by
      conv_lhs => rw [← List.take_append_drop k deps]
      congr 1
      rw [List.drop_eq_getElem_cons hk]
      rfl
    rw [hsplit]
    apply validateLoop_mr_at
    · obtain ⟨kv, hkv, v, hv, hb, hd⟩ := mem_trulyRequired.mp htr
      exact mem_classified1.mpr ⟨kv, hkv, ⟨v, hv, hb, hd⟩, Or.inr h2⟩
    · exact hnc

/-- C7 witness: a concrete plan referencing `$foo` with an empty
schema reports `foo` as missing-required, not missing-optional. -/
theorem c7_witness :
    "foo" ∉ (validate_dependencies (analyze_dependencies [bareRefStep]) [] []).2.2 ∧
    "foo" ∈ (validate_dependencies (analyze_dependencies [bareRefStep]) [] []).2.1 := by
  have h := c7_unknown_vars_required (analyze_dependencies [bareRefStep]) [] [] "foo"
    (by decide) (by decide)
  exact ⟨h.1, h.2 0 (by decide) (by decide) (by decide)⟩

/-- C9: two pools with the same key sequence (values arbitrary)
produce the same success flag, the same missing sets, the same
execution order and the same dependency-analysis summary; only
resolved parameter values can differ. -/
theorem c9_value_independence (cfg : IntentConfig) (p1 p2 : List (String × PyVal))
    (h : p1.map Prod.fst = p2.map Prod.fst) :
    (plan_tool_execution cfg p1).success = (plan_tool_execution cfg p2).success ∧
    (plan_tool_execution cfg p1).missingRequired =
      (plan_tool_execution cfg p2).missingRequired ∧
    (plan_tool_execution cfg p1).missingOptional =
      (plan_tool_execution cfg p2).missingOptional ∧
    (plan_tool_execution cfg p1).executionOrder =
      (plan_tool_execution cfg p2).executionOrder ∧
    (plan_tool_execution cfg p1).analysisSummary =
      (plan_tool_execution cfg p2).analysisSummary := by
  simp only [plan_tool_execution, h]
  by_cases hemp : cfg.tool_plan.isEmpty
  · simp [hemp]
  · simp only [hemp, Bool.false_eq_true, if_false]
    by_cases hv : (validate_dependencies (analyze_dependencies cfg.tool_plan)
        (p2.map Prod.fst) cfg.vars).1
    · simp only [hv, Bool.not_true, Bool.false_eq_true, if_false]
      simp only [PlanResult.success, PlanResult.missingRequired, PlanResult.missingOptional,
        PlanResult.executionOrder, PlanResult.analysisSummary]
      refine ⟨trivial, trivial, trivial, ?_, trivial⟩
      rw [List.map_map, List.map_map]
      rfl
    · simp [hv]

/-- C9 witness: two concrete pools binding `foo` to different values
agree on every value-independent component of the planning result. -/
theorem c9_witness :
    (plan_tool_execution { tool_plan := [bareRefStep], vars := [] }
        [("foo", PyVal.vstr "1")]).success =
      (plan_tool_execution { tool_plan := [bareRefStep], vars := [] }
        [("foo", PyVal.vint 2)]).success ∧
    (plan_tool_execution { tool_plan := [bareRefStep], vars := [] }
        [("foo", PyVal.vstr "1")]).missingRequired =
      (plan_tool_execution { tool_plan := [bareRefStep], vars := [] }
        [("foo", PyVal.vint 2)]).missingRequired ∧
    (plan_tool_execution { tool_plan := [bareRefStep], vars := [] }
        [("foo", PyVal.vstr "1")]).missingOptional =
      (plan_tool_execution { tool_plan := [bareRefStep], vars := [] }
        [("foo", PyVal.vint 2)]).missingOptional ∧
    (plan_tool_execution { tool_plan := [bareRefStep], vars := [] }
        [("foo", PyVal.vstr "1")]).executionOrder =
      (plan_tool_execution { tool_plan := [bareRefStep], vars := [] }
        [("foo", PyVal.vint 2)]).executionOrder ∧
    (plan_tool_execution { tool_plan := [bareRefStep], vars := [] }
        [("foo", PyVal.vstr "1")]).analysisSummary =
      (plan_tool_execution { tool_plan := [bareRefStep], vars := [] }
        [("foo", PyVal.vint 2)]).analysisSummary :=
  c9_value_independence { tool_plan := [bareRefStep], vars := [] }
    [("foo", PyVal.vstr "1")] [("foo", PyVal.vint 2)] rfl
